import Mathlib

/-!
Verification of the span/text manipulation core of a clippy-style lint engine
(`clippy_utils/src/source.rs`) and the formatting lints that are built on it.

Rust source text is modelled as a list of unicode scalar values (`List Char`);
byte offsets are derived from the UTF-8 encoding size of each character, so a
byte offset is a valid index exactly when it falls on a UTF-8 character
boundary, matching `str::get` in Rust.  Machine integers (`u32` positions) are
modelled as `Nat` with explicit wrap-around (`% 2^32`) where the source uses
`wrapping_sub`, and `u32::cast_signed` is modelled as reinterpretation into
`Int`.  The release build is modelled throughout: `dbg_check_range` performs
no checking.
-/

namespace Clippy

/-- Source text: a sequence of unicode scalar values, as in a Rust `str`. -/
abbrev Str := List Char

/-- Number of bytes of the UTF-8 encoding of a string (Rust `str::len`). -/
def byteLen : Str → Nat
  | [] => 0
  | c :: cs => c.utf8Size + byteLen cs

/-- Rust `str::get(n..)`: the suffix of the string starting at byte offset `n`,
or `none` when `n` is not on a character boundary (or past the end). -/
def strGetFrom : Str → Nat → Option Str
  | s, 0 => some s
  | [], _ + 1 => none
  | c :: cs, n + 1 =>
    if n + 1 < c.utf8Size then none else strGetFrom cs (n + 1 - c.utf8Size)

/-- Rust `str::get(..n)`: the prefix of the string up to byte offset `n`, or
`none` when `n` is not on a character boundary. -/
def strTake : Str → Nat → Option Str
  | _, 0 => some []
  | [], _ + 1 => none
  | c :: cs, n + 1 =>
    if n + 1 < c.utf8Size then none
    else (strTake cs (n + 1 - c.utf8Size)).map (fun t => c :: t)

/-- Rust `str::get(a..b)`: `some` exactly when `a ≤ b` and both offsets are on
character boundaries; returns the bytes in between, decoded. -/
def strGet (s : Str) (a b : Nat) : Option Str :=
  if a ≤ b then (strGetFrom s a).bind (fun t => strTake t (b - a)) else none

/-- Rust `str::is_char_boundary`: the byte offset is a valid cut point. -/
def isCharBoundary (s : Str) (n : Nat) : Bool :=
  (strGetFrom s n).isSome

/-- Rust `char::is_whitespace`: the Unicode White_Space property. -/
def isRustWhitespace (c : Char) : Bool :=
  let n := c.toNat
  n == 0x09 || n == 0x0A || n == 0x0B || n == 0x0C || n == 0x0D || n == 0x20 ||
  n == 0x85 || n == 0xA0 || n == 0x1680 || (0x2000 ≤ n && n ≤ 0x200A) ||
  n == 0x2028 || n == 0x2029 || n == 0x202F || n == 0x205F || n == 0x3000

/-- Rust `str::trim_start`: drop leading whitespace characters. -/
def strTrimStart (s : Str) : Str :=
  s.dropWhile isRustWhitespace

/-- Rust `str::strip_prefix` with a string pattern. -/
def strStripPre (pat s : Str) : Option Str :=
  if List.isPrefixOf pat s then some (s.drop pat.length) else none

/-- Wrapping subtraction on `u32` (`u32::wrapping_sub`), on `Nat` values. -/
def wrapSub32 (a b : Nat) : Nat :=
  (a % 2 ^ 32 + (2 ^ 32 - b % 2 ^ 32)) % 2 ^ 32

/-- Reinterpretation of a `u32` bit pattern as an `i32` (`u32::cast_signed`). -/
def u32CastSigned (n : Nat) : Int :=
  if n < 2 ^ 31 then (n : Int) else (n : Int) - 2 ^ 32

/-- A source file: its base offset in the global source map address space and
its text.  The text is modelled as present (the claims quantify over loaded
files, for which `SourceText::new` succeeds). -/
structure SourceFile where
  startPos : Nat
  text : Str
deriving DecidableEq

/-- The line-start table of a source file (`SourceFile::lines`), from a given
starting offset: the byte offset just after each newline. -/
def lineStartsAux : Str → Nat → List Nat
  | [], _ => []
  | c :: cs, pos =>
    if c = '\n' then (pos + 1) :: lineStartsAux cs (pos + 1)
    else lineStartsAux cs (pos + c.utf8Size)

/-- The line-start table of a source file (`SourceFile::lines`): offset `0`
followed by the byte offset just after each newline. -/
def lineStarts (s : Str) : List Nat :=
  0 :: lineStartsAux s 0

/-- The source map lookup `lookup_byte_offset` resolves an absolute position
to a file via `partition_point(|x| x.start_pos <= pos)`; on the sorted file
table the partition point equals the count of files starting at or before
`pos`.  Returns `none` where rustc would abort (no file at or before `pos`). -/
def lookupSourceFile (files : List SourceFile) (pos : Nat) : Option SourceFile :=
  match files.countP (fun f => decide (f.startPos ≤ pos)) with
  | 0 => none
  | k + 1 => files.get? k

/-- Well-formed source map: files are listed in address order and their byte
regions (including the end position) are disjoint, as guaranteed by the
allocator that assigns each file a fresh base offset region. -/
def SourceMapWF (files : List SourceFile) : Prop :=
  files.Pairwise (fun a b => a.startPos + byteLen a.text < b.startPos)

/-- Handle to a source file's text and a (relative byte) range within that
file (`SourceFileRange`).  The release build is modelled: `dbg_check_range`
performs no checking, and `set_range` simply stores the range. -/
structure SourceFileRange where
  file : SourceFile
  rangeStart : Nat
  rangeEnd : Nat
deriving DecidableEq

/-- The invariant of a valid cursor range: ordered endpoints within the file,
both on UTF-8 character boundaries. -/
def ValidRange (c : SourceFileRange) : Prop :=
  c.rangeStart ≤ c.rangeEnd ∧ c.rangeEnd ≤ byteLen c.file.text ∧
  isCharBoundary c.file.text c.rangeStart = true ∧
  isCharBoundary c.file.text c.rangeEnd = true

namespace SourceFileRange

/-- Attempts to get a handle to the source file and the text range within
that file (`SourceFileRange::new`).  Looks the start position up in the
source map, converts both endpoints to file-relative offsets (`u32`
subtraction, which wraps in release builds), and stores the range. -/
def new (files : List SourceFile) (lo hi : Nat) : Option SourceFileRange :=
  match lookupSourceFile files lo with
  | none => none
  | some sf =>
    some { file := sf
           rangeStart := wrapSub32 lo sf.startPos
           rangeEnd := wrapSub32 hi sf.startPos }

/-- Gets the source text contained within the current range
(`SourceFileRange::current_text`). -/
def current_text (c : SourceFileRange) : Option Str :=
  strGet c.file.text c.rangeStart c.rangeEnd

/-- Gets the current range as a range in the source map
(`SourceFileRange::source_range`). -/
def source_range (c : SourceFileRange) : Nat × Nat :=
  (c.rangeStart + c.file.startPos, c.rangeEnd + c.file.startPos)

/-- Sets the current range to the range between the current range and the
given (absolute) range (`SourceFileRange::set_range_between_other`).  Does
nothing and returns `none` if the ranges overlap.  The comparisons
reinterpret the wrapped relative offsets as signed 32-bit values, as the
source does. -/
def set_range_between_other (c : SourceFileRange) (oLo oHi : Nat) :
    Option SourceFileRange :=
  let os := wrapSub32 oLo c.file.startPos
  let oe := wrapSub32 oHi c.file.startPos
  if u32CastSigned c.rangeEnd < u32CastSigned os then
    some { c with rangeStart := c.rangeEnd, rangeEnd := os }
  else if u32CastSigned oe < u32CastSigned c.rangeStart then
    some { c with rangeStart := oe, rangeEnd := c.rangeStart }
  else none

/-- Sets the start of this range to the given source map position if it is at
or before the current range (`SourceFileRange::set_start_if_before`).  The
signed comparison catches some, but not all, cross-file positions. -/
def set_start_if_before (c : SourceFileRange) (pos : Nat) : Option SourceFileRange :=
  let relPos := wrapSub32 pos c.file.startPos
  if u32CastSigned relPos ≤ u32CastSigned c.rangeStart then
    some { c with rangeStart := relPos }
  else none

/-- Sets the start of this range to the given source map position if it is
within the current range (`SourceFileRange::set_start_if_within`). -/
def set_start_if_within (c : SourceFileRange) (pos : Nat) : Option SourceFileRange :=
  let relPos := wrapSub32 pos c.file.startPos
  if c.rangeStart ≤ relPos ∧ relPos ≤ c.rangeEnd then
    some { c with rangeStart := relPos }
  else none

/-- Sets the end of this range to the given source map position if it is at
or after the current range (`SourceFileRange::set_end_if_after`). -/
def set_end_if_after (c : SourceFileRange) (pos : Nat) : Option SourceFileRange :=
  let relPos := wrapSub32 pos c.file.startPos
  if u32CastSigned c.rangeEnd ≤ u32CastSigned relPos then
    some { c with rangeEnd := relPos }
  else none

/-- Sets the end of this range to the given source map position if it is
within the current range (`SourceFileRange::set_end_if_within`). -/
def set_end_if_within (c : SourceFileRange) (pos : Nat) : Option SourceFileRange :=
  let relPos := wrapSub32 pos c.file.startPos
  if c.rangeStart ≤ relPos ∧ relPos ≤ c.rangeEnd then
    some { c with rangeEnd := relPos }
  else none

/-- Maps the current range using the given function
(`SourceFileRange::edit_range`); commits the new range if one is produced. -/
def edit_range (c : SourceFileRange) (f : Str → Nat × Nat → Option (Nat × Nat)) :
    Option SourceFileRange :=
  match f c.file.text (c.rangeStart, c.rangeEnd) with
  | none => none
  | some r => some { c with rangeStart := r.1, rangeEnd := r.2 }

/-- Extends the range to include all trailing whitespace
(`SourceFileRange::add_trailing_whitespace`). -/
def add_trailing_whitespace (c : SourceFileRange) : Option SourceFileRange :=
  c.edit_range (fun src range =>
    match strGetFrom src range.2 with
    | none => none
    | some tail => some (range.1, byteLen src - byteLen (strTrimStart tail)))

end SourceFileRange

/-- The source's test whether extending backwards from the (trimmed) prefix
length `tbLen` to the range start crosses a line boundary: the first
line-start offset after `tbLen` exists and is at or before the range start. -/
def crossed_line_cond (text : Str) (tbLen rStart : Nat) : Bool :=
  match (lineStarts text).get? ((lineStarts text).countP (fun p => decide (p ≤ tbLen))) with
  | some searchLineEnd => decide (searchLineEnd ≤ rStart)
  | none => false

/-- Suggestion confidence levels (`rustc_errors::Applicability`). -/
inductive Applicability where
  | machineApplicable
  | maybeIncorrect
  | hasPlaceholders
  | unspecified
deriving DecidableEq

/-- The snippet helper `snippet_with_applicability_sm`: the source-map
snippet lookup and the span's expansion status are inputs (they are host
queries).  If the applicability is not `Unspecified` and the span is from a
macro expansion, the applicability is downgraded to `MaybeIncorrect`; if the
snippet is unavailable the default is used, downgrading `MachineApplicable`
to `HasPlaceholders`. -/
def snippet_with_applicability_sm (snippetResult : Option Str)
    (fromExpansion : Bool) (default : Str) (app : Applicability) :
    Str × Applicability :=
  let app1 :=
    if app ≠ Applicability.unspecified ∧ fromExpansion = true then
      Applicability.maybeIncorrect
    else app
  match snippetResult with
  | some s => (s, app1)
  | none =>
    (default,
     if app1 = Applicability.machineApplicable then Applicability.hasPlaceholders
     else app1)

/-- Span data: a byte range plus a syntax context (contexts are opaque
identifiers; `0` is the root context of code written directly by the user). -/
structure MSpanData where
  lo : Nat
  hi : Nat
  ctxt : Nat
deriving DecidableEq

/-- Modelled from the spec: rustc `hygiene::walk_chain` (an external host
function) repeatedly follows the macro call-site mapping, which takes a
non-root syntax context to the span of the macro invocation that produced
it, until the context matches the target or no further ancestor exists; the
walk is bounded by the hygiene tree depth, supplied as fuel. -/
def walkChain (macroCallSite : Nat → Option MSpanData) :
    Nat → MSpanData → Nat → MSpanData
  | 0, s, _ => s
  | fuel + 1, s, target =>
    if s.ctxt = target then s
    else
      match macroCallSite s.ctxt with
      | some caller => walkChain macroCallSite fuel caller target
      | none => s

/-- The `SpanLike` implementation of `walk_to_ctxt` for `Span`: walk the
chain, then keep the result only if it reached the target context. -/
def spanWalkToCtxt (macroCallSite : Nat → Option MSpanData) (fuel : Nat)
    (s : MSpanData) (ctxt : Nat) : Option (Nat × Nat) :=
  let other := walkChain macroCallSite fuel s ctxt
  if other.ctxt = ctxt then some (other.lo, other.hi) else none

/-- The `SpanLike` implementation of `walk_to_ctxt` for `Range<BytePos>`: a
bare range is at the root context, so the walk succeeds (with the range
unchanged) exactly when the target context is root. -/
def rangeWalkToCtxt (lo hi : Nat) (ctxt : Nat) : Option (Nat × Nat) :=
  if ctxt = 0 then some (lo, hi) else none

/-- The claim-level overlap test for half-open byte ranges. -/
def rangesOverlap (aLo aHi bLo bHi : Nat) : Bool :=
  decide (aLo < bHi) && decide (bLo < aHi)

/-- The `possible_missing_else` check: structural facts about the two
expressions (first is an `if`, second is an `if` or block, both spans in the
lint's context) are inputs; the text inspection follows the source: the
first expression's snippet must start with `if` and end with a closing
brace, and the gap to the second expression (via `set_range_between_other`)
must contain only non-newline whitespace.  Returns the flagged source range. -/
def possible_missing_else_check (files : List SourceFile)
    (firstIsIf secondIsIfOrBlock ctxtMatches : Bool)
    (fLo fHi sLo sHi : Nat) : Option (Nat × Nat) :=
  if firstIsIf && secondIsIfOrBlock && ctxtMatches then
    match SourceFileRange.new files fLo fHi with
    | none => none
    | some cr =>
      match cr.current_text with
      | none => none
      | some src =>
        if List.isPrefixOf ['i', 'f'] src && src.getLast? == some '\x7d' then
          match cr.set_range_between_other sLo sHi with
          | none => none
          | some cr2 =>
            match cr2.current_text with
            | none => none
            | some gap =>
              if gap.all (fun ch => ch != '\n' && isRustWhitespace ch) then
                some cr2.source_range
              else none
        else none
  else none

/-- A suggested replacement emitted by a lint: the absolute byte range to
replace, the replacement text, and the confidence level. -/
structure UnOpSugg where
  lo : Nat
  hi : Nat
  replacement : Str
  app : Applicability
deriving DecidableEq

/-- The `suspicious_unary_op_formatting` check: structural facts (the right
operand is a unary expression in the same context) are an input; the cursor
pipeline follows the source: start from the binary operator's span, extend
the end to the right operand's end, narrow to the two-operator window when
the text is the binary operator immediately followed by the unary operator
and whitespace, then extend over trailing whitespace for the suggestion
span.  Returns the linted range and the suggestion list. -/
def suspicious_unary_op_check (files : List SourceFile) (structureMatches : Bool)
    (binOpLo binOpHi rhsHi : Nat) (binOpStr unOpStr : Str)
    (ctxtIsRoot inExternalMacro : Bool) :
    Option ((Nat × Nat) × List UnOpSugg) :=
  if structureMatches then
    match SourceFileRange.new files binOpLo binOpHi with
    | none => none
    | some cr =>
      match cr.set_end_if_after rhsHi with
      | none => none
      | some cr1 =>
        match cr1.edit_range (fun src range =>
            match strGet src range.1 range.2 with
            | none => none
            | some s0 =>
              match strStripPre binOpStr s0 with
              | none => none
              | some s1 =>
                match strStripPre unOpStr s1 with
                | none => none
                | some s2 =>
                  if (s2.head?.map isRustWhitespace).getD false then
                    some (range.1, range.1 + byteLen binOpStr + byteLen unOpStr)
                  else none) with
        | none => none
        | some cr2 =>
          let lintRange := cr2.source_range
          match cr2.add_trailing_whitespace with
          | none => none
          | some cr3 =>
            if inExternalMacro then none
            else
              some (lintRange,
                [{ lo := cr3.source_range.1
                   hi := cr3.source_range.2
                   replacement := binOpStr ++ [' '] ++ unOpStr
                   app := if ctxtIsRoot then Applicability.machineApplicable
                          else Applicability.maybeIncorrect }])
  else none

/-- The `suspicious_assignment_formatting` check (`check_assign`), which
handles `a =- 1;`-shaped text (an assignment whose right-hand side is a
unary expression): structural facts (the rhs is unary, the contexts match)
are an input; the cursor pipeline follows the source: start from the `=`
operator's span, extend the end to the assignment's end, narrow to the
two-byte window when the text is `=` immediately followed by the unary
operator and whitespace, take the lint range before extending over trailing
whitespace for the separated suggestion's span.  Emits two suggestions:
the reversed compound form `{op}=` over the lint range, and the separated
form `= {op}` over the whitespace-extended range, both maybe-incorrect. -/
def suspicious_assignment_check (files : List SourceFile)
    (structureMatches : Bool) (opLo opHi assignHi : Nat) (opStr : Str)
    (inExternalMacro : Bool) :
    Option ((Nat × Nat) × List UnOpSugg) :=
  if structureMatches then
    match SourceFileRange.new files opLo opHi with
    | none => none
    | some cr =>
      match cr.set_end_if_after assignHi with
      | none => none
      | some cr1 =>
        match cr1.edit_range (fun src range =>
            match strGet src range.1 range.2 with
            | none => none
            | some s0 =>
              match strStripPre ['='] s0 with
              | none => none
              | some s1 =>
                match strStripPre opStr s1 with
                | none => none
                | some s2 =>
                  if (s2.head?.map isRustWhitespace).getD false then
                    some (range.1, range.1 + 2)
                  else none) with
        | none => none
        | some cr2 =>
          let lintRange := cr2.source_range
          match cr2.add_trailing_whitespace with
          | none => none
          | some cr3 =>
            if inExternalMacro then none
            else
              some (lintRange,
                [{ lo := lintRange.1
                   hi := lintRange.2
                   replacement := opStr ++ ['=']
                   app := Applicability.maybeIncorrect },
                 { lo := cr3.source_range.1
                   hi := cr3.source_range.2
                   replacement := ['=', ' '] ++ opStr
                   app := Applicability.maybeIncorrect }])
  else none

theorem byteLen_append (u v : Str) : byteLen (u ++ v) = byteLen u + byteLen v := by
  induction u with
  | nil => simp [byteLen]
  | cons c cs ih => simp [byteLen, ih]; omega

theorem utf8Size_pos (c : Char) : 0 < c.utf8Size := by
  have := Char.utf8Size_pos c
  omega

theorem byteLen_eq_zero {s : Str} (h : byteLen s = 0) : s = [] := by
  cases s with
  | nil => rfl
  | cons c cs =>
    exfalso
    have := utf8Size_pos c
    simp [byteLen] at h
    omega

theorem strGetFrom_append (u t : Str) : strGetFrom (u ++ t) (byteLen u) = some t := by
  induction u with
  | nil => simp [byteLen, strGetFrom]
  | cons c cs ih =>
    have hpos := utf8Size_pos c
    have hb : byteLen (c :: cs) = (c.utf8Size + byteLen cs - 1) + 1 := by
      simp [byteLen]; omega
    rw [List.cons_append, hb]
    show strGetFrom (c :: (cs ++ t)) ((c.utf8Size + byteLen cs - 1) + 1) = some t
    rw [strGetFrom]
    have h1 : ¬ (c.utf8Size + byteLen cs - 1 + 1 < c.utf8Size) := by omega
    simp only [if_neg h1]
    have h2 : c.utf8Size + byteLen cs - 1 + 1 - c.utf8Size = byteLen cs := by omega
    rw [h2, ih]

theorem strTake_append (t v : Str) : strTake (t ++ v) (byteLen t) = some t := by
  induction t with
  | nil => simp [byteLen, strTake]
  | cons c cs ih =>
    have hpos := utf8Size_pos c
    have hb : byteLen (c :: cs) = (c.utf8Size + byteLen cs - 1) + 1 := by
      simp [byteLen]; omega
    rw [List.cons_append, hb]
    show strTake (c :: (cs ++ v)) ((c.utf8Size + byteLen cs - 1) + 1) = some (c :: cs)
    rw [strTake]
    have h1 : ¬ (c.utf8Size + byteLen cs - 1 + 1 < c.utf8Size) := by omega
    simp only [if_neg h1]
    have h2 : c.utf8Size + byteLen cs - 1 + 1 - c.utf8Size = byteLen cs := by omega
    rw [h2, ih]
    rfl

theorem strGet_append (u d v : Str) :
    strGet (u ++ d ++ v) (byteLen u) (byteLen u + byteLen d) = some d := by
  unfold strGet
  have h1 : byteLen u ≤ byteLen u + byteLen d := Nat.le_add_right _ _
  rw [if_pos h1]
  rw [List.append_assoc, strGetFrom_append]
  have h2 : byteLen u + byteLen d - byteLen u = byteLen d := by omega
  simp only [h2, Option.bind, strTake_append]

theorem head_dropWhile_not {p : α → Bool} {l t : List α} {a : α}
    (h : l.dropWhile p = a :: t) : p a = false := by
  induction l with
  | nil => simp [List.dropWhile] at h
  | cons x xs ih =>
    rw [List.dropWhile] at h
    cases hx : p x with
    | false =>
      simp [hx] at h
      exact h.1 ▸ hx
    | true =>
      simp [hx] at h
      exact ih h

theorem wrapSub32_eq (a b : Nat) (hle : b ≤ a) (ha : a < 2 ^ 32) :
    wrapSub32 a b = a - b := by
  unfold wrapSub32
  have hb : b < 2 ^ 32 := lt_of_le_of_lt hle ha
  rw [Nat.mod_eq_of_lt ha, Nat.mod_eq_of_lt hb]
  have h1 : a + (2 ^ 32 - b) = (a - b) + 2 ^ 32 := by omega
  rw [h1, Nat.add_mod_right]
  exact Nat.mod_eq_of_lt (by omega)

theorem u32CastSigned_small (n : Nat) (h : n < 2 ^ 31) :
    u32CastSigned n = (n : Int) := by
  simp only [u32CastSigned]
  rw [if_pos (by omega)]

theorem lookup_of_mem (files : List SourceFile) (hwf : SourceMapWF files)
    (f : SourceFile) (hf : f ∈ files) (pos : Nat)
    (h1 : f.startPos ≤ pos) (h2 : pos ≤ f.startPos + byteLen f.text) :
    lookupSourceFile files pos = some f := by
  induction files with
  | nil => cases hf
  | cons g rest ih =>
    have hwf2 : SourceMapWF rest := (List.pairwise_cons.mp hwf).2
    have hrel := (List.pairwise_cons.mp hwf).1
    rcases List.mem_cons.mp hf with hfg | hfr
    · subst hfg
      have hcount : rest.countP (fun f2 => decide (f2.startPos ≤ pos)) = 0 := by
        rw [List.countP_eq_zero]
        intro x hx
        have := hrel x hx
        simp only [decide_eq_true_eq]
        omega
      unfold lookupSourceFile
      rw [List.countP_cons]
      simp only [hcount, decide_eq_true_eq]
      rw [if_pos h1]
      rfl
    · have hgf := hrel f hfr
      have hg : g.startPos ≤ pos := by omega
      have hrec := ih hwf2 hfr
      have hcpos : 0 < rest.countP (fun f2 => decide (f2.startPos ≤ pos)) := by
        rw [List.countP_pos_iff]
        exact ⟨f, hfr, by simp only [decide_eq_true_eq]; omega⟩
      unfold lookupSourceFile at hrec ⊢
      rw [List.countP_cons]
      simp only [decide_eq_true_eq]
      rw [if_pos hg]
      cases hc : rest.countP (fun f2 => decide (f2.startPos ≤ pos)) with
      | zero => omega
      | succ k =>
        rw [hc] at hrec
        simpa using hrec

/-- C1: For every byte range with ordered endpoints lying within a single
loaded source file and whose endpoints fall on UTF-8 boundaries (expressed by
decomposing the file's text as `u ++ x ++ v` with the range endpoints at the
byte offsets delimiting `x`), `SourceFileRange::new` over the range succeeds,
and `current_text` on the resulting cursor returns `some` of exactly the
substring `x` of that file's text between the range's byte offsets. -/
theorem c1_new_current_text (files : List SourceFile) (f : SourceFile)
    (u x v : Str) (lo hi : Nat)
    (hwf : SourceMapWF files) (hf : f ∈ files)
    (htext : f.text = u ++ x ++ v)
    (hcap : f.startPos + byteLen f.text < 2 ^ 32)
    (hlo : lo = f.startPos + byteLen u)
    (hhi : hi = f.startPos + (byteLen u + byteLen x)) :
    SourceFileRange.new files lo hi =
      some ⟨f, byteLen u, byteLen u + byteLen x⟩ ∧
    SourceFileRange.current_text ⟨f, byteLen u, byteLen u + byteLen x⟩ = some x := by
  have hbl : byteLen f.text = byteLen u + byteLen x + byteLen v := by
    rw [htext, byteLen_append, byteLen_append]
  constructor
  · unfold SourceFileRange.new
    rw [lookup_of_mem files hwf f hf lo (by omega) (by omega)]
    show some (SourceFileRange.mk f (wrapSub32 lo f.startPos) (wrapSub32 hi f.startPos)) =
      some ⟨f, byteLen u, byteLen u + byteLen x⟩
    have e1 : wrapSub32 lo f.startPos = byteLen u := by
      rw [hlo, wrapSub32_eq _ _ (by omega) (by omega)]
      omega
    have e2 : wrapSub32 hi f.startPos = byteLen u + byteLen x := by
      rw [hhi, wrapSub32_eq _ _ (by omega) (by omega)]
      omega
    rw [e1, e2]
  · unfold SourceFileRange.current_text
    show strGet f.text (byteLen u) (byteLen u + byteLen x) = some x
    rw [htext]
    exact strGet_append u x v

/-- Witness for C1 at a concrete two-file source map. -/
theorem c1_witness :
    SourceFileRange.new [⟨0, ['a', 'b']⟩, ⟨3, ['c', 'd', 'e', 'f']⟩] 4 6 =
      some ⟨⟨3, ['c', 'd', 'e', 'f']⟩, 1, 3⟩ ∧
    SourceFileRange.current_text ⟨⟨3, ['c', 'd', 'e', 'f']⟩, 1, 3⟩ =
      some ['d', 'e'] := by
  have h := c1_new_current_text [⟨0, ['a', 'b']⟩, ⟨3, ['c', 'd', 'e', 'f']⟩]
    ⟨3, ['c', 'd', 'e', 'f']⟩ ['c'] ['d', 'e'] ['f'] 4 6
    (by unfold SourceMapWF
        refine List.Pairwise.cons ?_ (List.pairwise_singleton _ _)
        intro x hx
        rw [List.mem_singleton] at hx
        subst hx
        decide)
    (by decide) (by decide) (by decide) (by decide) (by decide)
  exact ⟨h.1, h.2⟩

theorem between_cases (c : SourceFileRange) (oLo oHi : Nat)
    (hs : c.rangeStart ≤ c.rangeEnd) (he : c.rangeEnd ≤ byteLen c.file.text)
    (hlen : byteLen c.file.text < 2 ^ 31)
    (hcap : c.file.startPos + byteLen c.file.text < 2 ^ 32)
    (ho1 : c.file.startPos ≤ oLo) (ho2 : oLo ≤ oHi)
    (ho3 : oHi ≤ c.file.startPos + byteLen c.file.text) :
    (c.rangeEnd < oLo - c.file.startPos →
      c.set_range_between_other oLo oHi =
        some { c with rangeStart := c.rangeEnd, rangeEnd := oLo - c.file.startPos }) ∧
    (oHi - c.file.startPos < c.rangeStart →
      c.set_range_between_other oLo oHi =
        some { c with rangeStart := oHi - c.file.startPos, rangeEnd := c.rangeStart }) ∧
    (¬ c.rangeEnd < oLo - c.file.startPos → ¬ oHi - c.file.startPos < c.rangeStart →
      c.set_range_between_other oLo oHi = none) := by
  have hrelLo : wrapSub32 oLo c.file.startPos = oLo - c.file.startPos :=
    wrapSub32_eq _ _ ho1 (by omega)
  have hrelHi : wrapSub32 oHi c.file.startPos = oHi - c.file.startPos :=
    wrapSub32_eq _ _ (by omega) (by omega)
  have hsE := u32CastSigned_small c.rangeEnd (by omega)
  have hsS := u32CastSigned_small c.rangeStart (by omega)
  have hsLo := u32CastSigned_small (oLo - c.file.startPos) (by omega)
  have hsHi := u32CastSigned_small (oHi - c.file.startPos) (by omega)
  unfold SourceFileRange.set_range_between_other
  simp only [hrelLo, hrelHi, hsE, hsS, hsLo, hsHi]
  refine ⟨?_, ?_, ?_⟩
  · intro h
    rw [if_pos (by exact_mod_cast h)]
  · intro h
    rw [if_neg (by omega), if_pos (by exact_mod_cast h)]
  · intro h1 h2
    rw [if_neg (by omega), if_neg (by omega)]

/-- C2 counterexample: the half-open ranges A = [0,2) and B = [2,4) in the
file `abcd` do not overlap and A precedes B, yet `set_range_between_other`
returns `none` (the claim as stated requires `some` with the empty gap
[A.end, B.start)). -/
theorem c2_counterexample :
    rangesOverlap 0 2 2 4 = false ∧ 2 ≤ 2 ∧
    (SourceFileRange.mk ⟨0, ['a', 'b', 'c', 'd']⟩ 0 2).set_range_between_other 2 4
      = none := by
  refine ⟨by decide, by decide, by decide⟩

/-- C2 (amended): for a valid cursor range A and an argument range B with
valid bounds in the same file, `set_range_between_other` returns `some` with
the range set to exactly [A.end, B.start) when A ends strictly before B
starts, `some` with exactly [B.end, A.start) when B ends strictly before A
starts, and `none` otherwise — i.e. when the ranges overlap or merely touch
(an empty "between" gap also yields `none`). -/
theorem c2_set_range_between_other_spec (c : SourceFileRange) (oLo oHi : Nat)
    (hval : ValidRange c) (hlen : byteLen c.file.text < 2 ^ 31)
    (hcap : c.file.startPos + byteLen c.file.text < 2 ^ 32)
    (ho1 : c.file.startPos ≤ oLo) (ho2 : oLo ≤ oHi)
    (ho3 : oHi ≤ c.file.startPos + byteLen c.file.text) :
    (c.rangeEnd < oLo - c.file.startPos →
      c.set_range_between_other oLo oHi =
        some { c with rangeStart := c.rangeEnd, rangeEnd := oLo - c.file.startPos }) ∧
    (oHi - c.file.startPos < c.rangeStart →
      c.set_range_between_other oLo oHi =
        some { c with rangeStart := oHi - c.file.startPos, rangeEnd := c.rangeStart }) ∧
    (¬ c.rangeEnd < oLo - c.file.startPos → ¬ oHi - c.file.startPos < c.rangeStart →
      c.set_range_between_other oLo oHi = none) :=
  between_cases c oLo oHi hval.1 hval.2.1 hlen hcap ho1 ho2 ho3

/-- Witness for C2 (amended) at concrete inputs: the cursor range [0,1) of
file `abcd` and the argument range [2,4) give the gap [1,2). -/
theorem c2_witness :
    (SourceFileRange.mk ⟨0, ['a', 'b', 'c', 'd']⟩ 0 1).set_range_between_other 2 4
      = some (SourceFileRange.mk ⟨0, ['a', 'b', 'c', 'd']⟩ 1 2) := by
  have h := c2_set_range_between_other_spec
    (SourceFileRange.mk ⟨0, ['a', 'b', 'c', 'd']⟩ 0 1) 2 4
    (by refine ⟨by decide, by decide, by decide, by decide⟩)
    (by decide) (by decide) (by decide) (by decide) (by decide)
  exact h.1 (by decide)

/-- C3 counterexample: position 2 lies in the same file as the cursor over
[0,4) in `abcdef`, and setting the start to it would not invert the range
(2 ≤ 4), yet `set_start_if_before` fails; moreover a position (50) lying in
an earlier region than the cursor's file (base offset 100) is accepted via
wrap-around instead of failing.  Both contradict "fail exactly when the
position lies in a different file or the range would invert". -/
theorem c3_counterexample :
    (SourceFileRange.mk ⟨0, ['a', 'b', 'c', 'd', 'e', 'f']⟩ 0 4).set_start_if_before 2
      = none ∧
    (2 ≤ 4 ∧ 2 ≤ 6) ∧
    ((SourceFileRange.mk ⟨100, ['a', 'b', 'c', 'd']⟩ 0 2).set_start_if_before 50).isSome
      = true := by
  refine ⟨by decide, ⟨by decide, by decide⟩, by decide⟩

/-- C3 (amended): for a position in the same file (on a UTF-8 boundary),
`set_start_if_before` succeeds exactly when the position is at or before the
current start, moving the start outward to it, and `set_end_if_after`
succeeds exactly when the position is at or after the current end, moving
the end outward to it; positions on the wrong side of the range (including
interior positions that would not invert the range) fail.  Cross-file
positions are not covered: the signed comparison rejects only some of them. -/
theorem c3_set_start_end_same_file (c : SourceFileRange) (pos : Nat)
    (hval : ValidRange c) (hlen : byteLen c.file.text < 2 ^ 31)
    (hcap : c.file.startPos + byteLen c.file.text < 2 ^ 32)
    (hp1 : c.file.startPos ≤ pos)
    (hp2 : pos ≤ c.file.startPos + byteLen c.file.text) :
    (c.set_start_if_before pos =
      if pos - c.file.startPos ≤ c.rangeStart then
        some { c with rangeStart := pos - c.file.startPos }
      else none) ∧
    (c.set_end_if_after pos =
      if c.rangeEnd ≤ pos - c.file.startPos then
        some { c with rangeEnd := pos - c.file.startPos }
      else none) := by
  obtain ⟨hv1, hv2, _, _⟩ := hval
  have hrel : wrapSub32 pos c.file.startPos = pos - c.file.startPos :=
    wrapSub32_eq _ _ hp1 (by omega)
  have hsP := u32CastSigned_small (pos - c.file.startPos) (by omega)
  have hsS := u32CastSigned_small c.rangeStart (by omega)
  have hsE := u32CastSigned_small c.rangeEnd (by omega)
  constructor
  · unfold SourceFileRange.set_start_if_before
    simp only [hrel, hsP, hsS]
    by_cases h : pos - c.file.startPos ≤ c.rangeStart
    · rw [if_pos (by exact_mod_cast h), if_pos h]
    · rw [if_neg (by omega), if_neg h]
  · unfold SourceFileRange.set_end_if_after
    simp only [hrel, hsP, hsE]
    by_cases h : c.rangeEnd ≤ pos - c.file.startPos
    · rw [if_pos (by exact_mod_cast h), if_pos h]
    · rw [if_neg (by omega), if_neg h]

/-- Witness for C3 (amended) at concrete inputs: on the cursor [1,2) of file
`abcd`, position 0 moves the start outward and position 4 moves the end
outward. -/
theorem c3_witness :
    (SourceFileRange.mk ⟨0, ['a', 'b', 'c', 'd']⟩ 1 2).set_start_if_before 0
      = some (SourceFileRange.mk ⟨0, ['a', 'b', 'c', 'd']⟩ 0 2) ∧
    (SourceFileRange.mk ⟨0, ['a', 'b', 'c', 'd']⟩ 1 2).set_end_if_after 4
      = some (SourceFileRange.mk ⟨0, ['a', 'b', 'c', 'd']⟩ 1 4) := by
  have h0 := c3_set_start_end_same_file
    (SourceFileRange.mk ⟨0, ['a', 'b', 'c', 'd']⟩ 1 2) 0
    (by refine ⟨by decide, by decide, by decide, by decide⟩)
    (by decide) (by decide) (by decide) (by decide)
  have h4 := c3_set_start_end_same_file
    (SourceFileRange.mk ⟨0, ['a', 'b', 'c', 'd']⟩ 1 2) 4
    (by refine ⟨by decide, by decide, by decide, by decide⟩)
    (by decide) (by decide) (by decide) (by decide)
  exact ⟨by simpa using h0.1, by simpa using h4.2⟩

/-- C10: for a cursor whose range satisfies the invariant (ordered endpoints
within the file on UTF-8 boundaries), each guarded mutating operation —
`set_start_if_before`, `set_start_if_within`, `set_end_if_after`,
`set_end_if_within` and `set_range_between_other` — when given a position or
range lying within the same file on UTF-8 boundaries (expressed by a
decomposition of the file text) and returning `some`, re-establishes the
invariant, in the release build where `dbg_check_range` performs no checking. -/
theorem c10_guarded_ops_preserve_invariant (c : SourceFileRange)
    (hval : ValidRange c) (hlen : byteLen c.file.text < 2 ^ 31)
    (hcap : c.file.startPos + byteLen c.file.text < 2 ^ 32) :
    (∀ pos u t, c.file.text = u ++ t → pos = c.file.startPos + byteLen u →
      ∀ c2, c.set_start_if_before pos = some c2 → ValidRange c2) ∧
    (∀ pos u t, c.file.text = u ++ t → pos = c.file.startPos + byteLen u →
      ∀ c2, c.set_start_if_within pos = some c2 → ValidRange c2) ∧
    (∀ pos u t, c.file.text = u ++ t → pos = c.file.startPos + byteLen u →
      ∀ c2, c.set_end_if_after pos = some c2 → ValidRange c2) ∧
    (∀ pos u t, c.file.text = u ++ t → pos = c.file.startPos + byteLen u →
      ∀ c2, c.set_end_if_within pos = some c2 → ValidRange c2) ∧
    (∀ oLo oHi u d t, c.file.text = u ++ d ++ t →
      oLo = c.file.startPos + byteLen u → oHi = oLo + byteLen d →
      ∀ c2, c.set_range_between_other oLo oHi = some c2 → ValidRange c2) := by
  obtain ⟨hv1, hv2, hv3, hv4⟩ := hval
  have hlen2 : byteLen c.file.text < 2 ^ 32 := by omega
  refine ⟨?_, ?_, ?_, ?_, ?_⟩
  · intro pos u t htext hpos c2 h
    have hu : byteLen u ≤ byteLen c.file.text := by
      rw [htext, byteLen_append]; omega
    have hrel : wrapSub32 pos c.file.startPos = byteLen u := by
      rw [hpos, wrapSub32_eq _ _ (by omega) (by omega)]; omega
    have hbu : isCharBoundary c.file.text (byteLen u) = true := by
      rw [isCharBoundary, htext, strGetFrom_append]; rfl
    unfold SourceFileRange.set_start_if_before at h
    simp only [hrel] at h
    rw [u32CastSigned_small _ (by omega), u32CastSigned_small _ (by omega)] at h
    by_cases hle : (byteLen u : Int) ≤ (c.rangeStart : Int)
    · rw [if_pos hle] at h
      obtain rfl : c2 = { c with rangeStart := byteLen u } := by
        injection h with h2; exact h2.symm
      have : byteLen u ≤ c.rangeStart := by exact_mod_cast hle
      exact ⟨by simp; omega, by simpa using hv2, by simpa using hbu, by simpa using hv4⟩
    · rw [if_neg hle] at h
      cases h
  · intro pos u t htext hpos c2 h
    have hu : byteLen u ≤ byteLen c.file.text := by
      rw [htext, byteLen_append]; omega
    have hrel : wrapSub32 pos c.file.startPos = byteLen u := by
      rw [hpos, wrapSub32_eq _ _ (by omega) (by omega)]; omega
    have hbu : isCharBoundary c.file.text (byteLen u) = true := by
      rw [isCharBoundary, htext, strGetFrom_append]; rfl
    unfold SourceFileRange.set_start_if_within at h
    simp only [hrel] at h
    by_cases hin : c.rangeStart ≤ byteLen u ∧ byteLen u ≤ c.rangeEnd
    · rw [if_pos hin] at h
      obtain rfl : c2 = { c with rangeStart := byteLen u } := by
        injection h with h2; exact h2.symm
      exact ⟨by simp; omega, by simpa using hv2, by simpa using hbu, by simpa using hv4⟩
    · rw [if_neg hin] at h
      cases h
  · intro pos u t htext hpos c2 h
    have hu : byteLen u ≤ byteLen c.file.text := by
      rw [htext, byteLen_append]; omega
    have hrel : wrapSub32 pos c.file.startPos = byteLen u := by
      rw [hpos, wrapSub32_eq _ _ (by omega) (by omega)]; omega
    have hbu : isCharBoundary c.file.text (byteLen u) = true := by
      rw [isCharBoundary, htext, strGetFrom_append]; rfl
    unfold SourceFileRange.set_end_if_after at h
    simp only [hrel] at h
    rw [u32CastSigned_small _ (by omega), u32CastSigned_small _ (by omega)] at h
    by_cases hle : (c.rangeEnd : Int) ≤ (byteLen u : Int)
    · rw [if_pos hle] at h
      obtain rfl : c2 = { c with rangeEnd := byteLen u } := by
        injection h with h2; exact h2.symm
      have : c.rangeEnd ≤ byteLen u := by exact_mod_cast hle
      exact ⟨by simp; omega, by simpa using hu, by simpa using hv3, by simpa using hbu⟩
    · rw [if_neg hle] at h
      cases h
  · intro pos u t htext hpos c2 h
    have hu : byteLen u ≤ byteLen c.file.text := by
      rw [htext, byteLen_append]; omega
    have hrel : wrapSub32 pos c.file.startPos = byteLen u := by
      rw [hpos, wrapSub32_eq _ _ (by omega) (by omega)]; omega
    have hbu : isCharBoundary c.file.text (byteLen u) = true := by
      rw [isCharBoundary, htext, strGetFrom_append]; rfl
    unfold SourceFileRange.set_end_if_within at h
    simp only [hrel] at h
    by_cases hin : c.rangeStart ≤ byteLen u ∧ byteLen u ≤ c.rangeEnd
    · rw [if_pos hin] at h
      obtain rfl : c2 = { c with rangeEnd := byteLen u } := by
        injection h with h2; exact h2.symm
      exact ⟨by simp; omega, by simpa using hu, by simpa using hv3, by simpa using hbu⟩
    · rw [if_neg hin] at h
      cases h
  · intro oLo oHi u d t htext hlo hhi c2 h
    have hud : byteLen u + byteLen d ≤ byteLen c.file.text := by
      rw [htext, byteLen_append, byteLen_append]; omega
    have hbu : isCharBoundary c.file.text (byteLen u) = true := by
      rw [isCharBoundary, htext, List.append_assoc, strGetFrom_append]; rfl
    have hbud : isCharBoundary c.file.text (byteLen u + byteLen d) = true := by
      rw [isCharBoundary, htext, ← byteLen_append, strGetFrom_append]; rfl
    have hrelLo : wrapSub32 oLo c.file.startPos = byteLen u := by
      rw [hlo, wrapSub32_eq _ _ (by omega) (by omega)]; omega
    have hrelHi : wrapSub32 oHi c.file.startPos = byteLen u + byteLen d := by
      rw [hhi, hlo, wrapSub32_eq _ _ (by omega) (by omega)]; omega
    unfold SourceFileRange.set_range_between_other at h
    simp only [hrelLo, hrelHi] at h
    rw [u32CastSigned_small c.rangeEnd (by omega),
      u32CastSigned_small (byteLen u) (by omega),
      u32CastSigned_small c.rangeStart (by omega),
      u32CastSigned_small (byteLen u + byteLen d) (by omega)] at h
    by_cases h1 : (c.rangeEnd : Int) < (byteLen u : Int)
    · rw [if_pos h1] at h
      obtain rfl : c2 = { c with rangeStart := c.rangeEnd, rangeEnd := byteLen u } := by
        injection h with h2; exact h2.symm
      have : c.rangeEnd ≤ byteLen u := by exact_mod_cast h1.le
      exact ⟨by simpa using this, by simp; omega, by simpa using hv4, by simpa using hbu⟩
    · rw [if_neg h1] at h
      by_cases h2 : ((byteLen u + byteLen d : Nat) : Int) < (c.rangeStart : Int)
      · rw [if_pos h2] at h
        obtain rfl :
            c2 = { c with rangeStart := byteLen u + byteLen d, rangeEnd := c.rangeStart } := by
          injection h with h3; exact h3.symm
        have : byteLen u + byteLen d ≤ c.rangeStart := by exact_mod_cast h2.le
        exact ⟨by simpa using this, by simp; omega, by simpa using hbud, by simpa using hv3⟩
      · rw [if_neg h2] at h
        cases h

/-- Witness for C10 at concrete inputs: extending the start of the cursor
[1,2) of file `abcd` outward to position 0 preserves the invariant. -/
theorem c10_witness :
    ValidRange (SourceFileRange.mk ⟨0, ['a', 'b', 'c', 'd']⟩ 0 2) := by
  have h := c10_guarded_ops_preserve_invariant
    (SourceFileRange.mk ⟨0, ['a', 'b', 'c', 'd']⟩ 1 2)
    (by refine ⟨by decide, by decide, by decide, by decide⟩)
    (by decide) (by decide)
  exact h.1 0 [] ['a', 'b', 'c', 'd'] rfl (by decide)
    (SourceFileRange.mk ⟨0, ['a', 'b', 'c', 'd']⟩ 0 2) (by decide)

theorem strGetFrom_some_decomp (s : Str) (n : Nat) (t : Str)
    (h : strGetFrom s n = some t) : ∃ u, s = u ++ t ∧ byteLen u = n := by
  induction s generalizing n with
  | nil =>
    cases n with
    | zero =>
      refine ⟨[], ?_, rfl⟩
      simp [strGetFrom] at h
      simp [h]
    | succ k => simp [strGetFrom] at h
  | cons c cs ih =>
    cases n with
    | zero =>
      refine ⟨[], ?_, rfl⟩
      simp [strGetFrom] at h
      simp [h]
    | succ k =>
      rw [strGetFrom] at h
      by_cases hlt : k + 1 < c.utf8Size
      · rw [if_pos hlt] at h
        cases h
      · rw [if_neg hlt] at h
        obtain ⟨u, hu, hb⟩ := ih _ h
        exact ⟨c :: u, by simp [hu], by simp [byteLen, hb]; omega⟩

theorem dropWhile_idem (p : α → Bool) (l : List α) :
    (l.dropWhile p).dropWhile p = l.dropWhile p := by
  cases hd : l.dropWhile p with
  | nil => rfl
  | cons a t =>
    rw [List.dropWhile_cons]
    rw [if_neg (by simp [head_dropWhile_not hd])]

theorem add_trailing_none (c : SourceFileRange)
    (h : strGetFrom c.file.text c.rangeEnd = none) :
    c.add_trailing_whitespace = none := by
  unfold SourceFileRange.add_trailing_whitespace SourceFileRange.edit_range
  simp only [h]

theorem add_trailing_some (c : SourceFileRange) (tail : Str)
    (h : strGetFrom c.file.text c.rangeEnd = some tail) :
    c.add_trailing_whitespace =
      some { c with rangeEnd := byteLen c.file.text - byteLen (strTrimStart tail) } := by
  unfold SourceFileRange.add_trailing_whitespace SourceFileRange.edit_range
  simp only [h]

/-- C5: `add_trailing_whitespace` is idempotent: for every cursor, applying
it twice (propagating failure) yields the same final range and the same
success result as applying it once. -/
theorem c5_add_trailing_whitespace_idempotent (c : SourceFileRange) :
    (c.add_trailing_whitespace).bind SourceFileRange.add_trailing_whitespace =
      c.add_trailing_whitespace := by
  cases hg : strGetFrom c.file.text c.rangeEnd with
  | none => rw [add_trailing_none c hg]; rfl
  | some tail =>
    rw [add_trailing_some c tail hg, Option.some_bind]
    obtain ⟨u, hu, hb⟩ := strGetFrom_some_decomp _ _ _ hg
    have hsplit : c.file.text =
        (u ++ tail.takeWhile isRustWhitespace) ++ strTrimStart tail := by
      rw [hu, List.append_assoc]
      unfold strTrimStart
      rw [List.takeWhile_append_dropWhile]
    have htot : byteLen c.file.text =
        byteLen (u ++ tail.takeWhile isRustWhitespace) + byteLen (strTrimStart tail) := by
      conv_lhs => rw [hsplit]
      rw [byteLen_append]
    have hg2 : strGetFrom c.file.text
        (byteLen c.file.text - byteLen (strTrimStart tail)) =
        some (strTrimStart tail) := by
      have he : byteLen c.file.text - byteLen (strTrimStart tail) =
          byteLen (u ++ tail.takeWhile isRustWhitespace) := by omega
      rw [he]
      conv_lhs => rw [hsplit]
      exact strGetFrom_append _ _
    rw [add_trailing_some _ (strTrimStart tail) hg2]
    have hidem : strTrimStart (strTrimStart tail) = strTrimStart tail := by
      unfold strTrimStart
      exact dropWhile_idem _ _
    rw [hidem]

/-- C6: `walk_to_ctxt` is the identity on spans already at the target
context: a span whose syntax context equals the target resolves to `some` of
its own unchanged byte range (for a bare byte range, whenever the target
context is the root context). -/
theorem c6_walk_to_ctxt_identity :
    (∀ (macroCallSite : Nat → Option MSpanData) (fuel : Nat) (s : MSpanData)
        (ctxt : Nat), s.ctxt = ctxt →
      spanWalkToCtxt macroCallSite fuel s ctxt = some (s.lo, s.hi)) ∧
    (∀ lo hi : Nat, rangeWalkToCtxt lo hi 0 = some (lo, hi)) := by
  constructor
  · intro mcs fuel s ctxt h
    have hwc : walkChain mcs fuel s ctxt = s := by
      cases fuel with
      | zero => rfl
      | succ n =>
        unfold walkChain
        rw [if_pos h]
    unfold spanWalkToCtxt
    rw [hwc, if_pos h]
  · intro lo hi
    rfl

/-- Witness for C6 at a concrete span already at its target context. -/
theorem c6_witness :
    spanWalkToCtxt (fun _ => none) 5 ⟨3, 7, 2⟩ 2 = some (3, 7) ∧
    rangeWalkToCtxt 4 9 0 = some (4, 9) :=
  ⟨c6_walk_to_ctxt_identity.1 (fun _ => none) 5 ⟨3, 7, 2⟩ 2 rfl,
   c6_walk_to_ctxt_identity.2 4 9⟩

/-- C7: whenever a suggestion snippet is taken from a span that originates
from macro expansion and the applicability is not `Unspecified`,
`snippet_with_applicability` sets the applicability to `MaybeIncorrect`; in
particular the resulting applicability is never `MachineApplicable` for an
expansion span, and the `suspicious_unary_op_formatting` lint attaches
`MachineApplicable` to a suggestion only when the span's context is root. -/
theorem c7_macro_snippet_downgrades (snippetResult : Option Str) (default : Str)
    (app : Applicability) :
    (app ≠ Applicability.unspecified →
      (snippet_with_applicability_sm snippetResult true default app).2 =
        Applicability.maybeIncorrect) ∧
    ((snippet_with_applicability_sm snippetResult true default app).2 ≠
      Applicability.machineApplicable) ∧
    (∀ files structureMatches binOpLo binOpHi rhsHi binOpStr unOpStr ctxtIsRoot
        inExternalMacro r suggs sugg,
      suspicious_unary_op_check files structureMatches binOpLo binOpHi rhsHi
        binOpStr unOpStr ctxtIsRoot inExternalMacro = some (r, suggs) →
      sugg ∈ suggs → sugg.app = Applicability.machineApplicable →
      ctxtIsRoot = true) := by
  refine ⟨?_, ?_, ?_⟩
  · intro h
    unfold snippet_with_applicability_sm
    rw [if_pos ⟨h, rfl⟩]
    cases snippetResult with
    | none => simp
    | some s => rfl
  · by_cases h : app = Applicability.unspecified
    · subst h
      unfold snippet_with_applicability_sm
      rw [if_neg (by simp)]
      cases snippetResult with
      | none => simp
      | some s => simp
    · unfold snippet_with_applicability_sm
      rw [if_pos ⟨h, rfl⟩]
      cases snippetResult with
      | none => simp
      | some s => simp
  · intro files structureMatches binOpLo binOpHi rhsHi binOpStr unOpStr
      ctxtIsRoot inExternalMacro r suggs sugg hres hmem happ
    unfold suspicious_unary_op_check at hres
    cases ctxtIsRoot with
    | true => rfl
    | false =>
      exfalso
      split at hres
      · split at hres
        · cases hres
        · split at hres
          · cases hres
          · split at hres
            · cases hres
            · split at hres
              · cases hres
              · split at hres
                · cases hres
                · injection hres with h1
                  have h2 := congrArg Prod.snd h1
                  simp only [] at h2
                  subst h2
                  rw [List.mem_singleton] at hmem
                  subst hmem
                  simp at happ
      · cases hres

/-- Witness for C7 at a concrete expansion span. -/
theorem c7_witness :
    (snippet_with_applicability_sm (some ['x']) true ['d']
      Applicability.machineApplicable).2 = Applicability.maybeIncorrect :=
  (c7_macro_snippet_downgrades (some ['x']) ['d']
    Applicability.machineApplicable).1 (by decide)

/-- C8: for two consecutive expressions in a file where the first is an `if`
whose text starts with `if` and ends with a closing brace and the second is
an `if` or a block in the same syntax context (the structural inputs), the
possibly-missing-else lint fires exactly when `set_range_between_other`
yields a (necessarily nonempty) gap between them and every character of the
gap is whitespace other than a newline; any newline, comment or other token
in the gap — and an empty gap, on which `set_range_between_other` fails —
suppresses the lint.  The text is decomposed as `a ++ x ++ g ++ y ++ b` with
`x` the first expression's text, `g` the gap and `y` the second. -/
theorem c8_possible_missing_else_spec (a x g y b text : Str)
    (htext : text = a ++ x ++ g ++ y ++ b)
    (hlen : byteLen text < 2 ^ 31)
    (hx2 : List.isPrefixOf ['i', 'f'] x = true)
    (hx3 : x.getLast? = some '\x7d') :
    possible_missing_else_check [⟨0, text⟩] true true true
      (byteLen a) (byteLen a + byteLen x)
      (byteLen a + byteLen x + byteLen g)
      (byteLen a + byteLen x + byteLen g + byteLen y) =
      (if g ≠ [] ∧ g.all (fun ch => ch != '\n' && isRustWhitespace ch) = true then
        some (byteLen a + byteLen x, byteLen a + byteLen x + byteLen g)
      else none) := by
  have htot : byteLen text =
      byteLen a + byteLen x + byteLen g + byteLen y + byteLen b := by
    rw [htext]
    simp only [byteLen_append]
  have hwf1 : SourceMapWF [⟨0, text⟩] := List.pairwise_singleton _ _
  have hmem : (⟨0, text⟩ : SourceFile) ∈ [(⟨0, text⟩ : SourceFile)] := by simp
  have hnew : SourceFileRange.new [⟨0, text⟩] (byteLen a) (byteLen a + byteLen x) =
      some ⟨⟨0, text⟩, byteLen a, byteLen a + byteLen x⟩ := by
    unfold SourceFileRange.new
    rw [lookup_of_mem [⟨0, text⟩] hwf1 ⟨0, text⟩ hmem (byteLen a)
      (Nat.zero_le _) (by show byteLen a ≤ 0 + byteLen text; omega)]
    show some (SourceFileRange.mk ⟨0, text⟩ (wrapSub32 (byteLen a) 0)
      (wrapSub32 (byteLen a + byteLen x) 0)) = _
    rw [wrapSub32_eq _ _ (Nat.zero_le _) (by omega),
      wrapSub32_eq _ _ (Nat.zero_le _) (by omega)]
    simp
  have hct : (SourceFileRange.mk ⟨0, text⟩ (byteLen a)
      (byteLen a + byteLen x)).current_text = some x := by
    show strGet text (byteLen a) (byteLen a + byteLen x) = some x
    rw [htext]
    have h := strGet_append a x (g ++ y ++ b)
    simpa [List.append_assoc] using h
  unfold possible_missing_else_check
  rw [if_pos (by simp)]
  rw [hnew]
  simp only [hct]
  rw [if_pos (by rw [hx2, hx3]; simp)]
  by_cases hg : g = []
  · subst hg
    have hnone := (between_cases
      (SourceFileRange.mk ⟨0, text⟩ (byteLen a) (byteLen a + byteLen x))
      (byteLen a + byteLen x + byteLen ([] : Str))
      (byteLen a + byteLen x + byteLen ([] : Str) + byteLen y)
      (by show byteLen a ≤ byteLen a + byteLen x; omega)
      (by show byteLen a + byteLen x ≤ byteLen text; omega)
      (by show byteLen text < 2 ^ 31; omega)
      (by show 0 + byteLen text < 2 ^ 32; omega)
      (Nat.zero_le _)
      (by omega)
      (by show byteLen a + byteLen x + byteLen ([] : Str) + byteLen y ≤
        0 + byteLen text; simp [byteLen] at htot ⊢; omega)).2.2
      (by show ¬ byteLen a + byteLen x <
        byteLen a + byteLen x + byteLen ([] : Str) - 0; simp [byteLen])
      (by show ¬ byteLen a + byteLen x + byteLen ([] : Str) + byteLen y - 0 <
        byteLen a; simp [byteLen]; omega)
    rw [hnone]
    simp
  · have hgpos : 0 < byteLen g := by
      rcases Nat.eq_zero_or_pos (byteLen g) with h0 | h0
      · exact absurd (byteLen_eq_zero h0) hg
      · exact h0
    have hsome := (between_cases
      (SourceFileRange.mk ⟨0, text⟩ (byteLen a) (byteLen a + byteLen x))
      (byteLen a + byteLen x + byteLen g)
      (byteLen a + byteLen x + byteLen g + byteLen y)
      (by show byteLen a ≤ byteLen a + byteLen x; omega)
      (by show byteLen a + byteLen x ≤ byteLen text; omega)
      (by show byteLen text < 2 ^ 31; omega)
      (by show 0 + byteLen text < 2 ^ 32; omega)
      (Nat.zero_le _)
      (by omega)
      (by show byteLen a + byteLen x + byteLen g + byteLen y ≤ 0 + byteLen text
          omega)).1
      (by show byteLen a + byteLen x < byteLen a + byteLen x + byteLen g - 0
          omega)
    have hsome2 : (SourceFileRange.mk ⟨0, text⟩ (byteLen a)
        (byteLen a + byteLen x)).set_range_between_other
        (byteLen a + byteLen x + byteLen g)
        (byteLen a + byteLen x + byteLen g + byteLen y) =
        some (SourceFileRange.mk ⟨0, text⟩ (byteLen a + byteLen x)
          (byteLen a + byteLen x + byteLen g)) := by
      rw [hsome]
      simp
    rw [hsome2]
    have hct2 : (SourceFileRange.mk ⟨0, text⟩ (byteLen a + byteLen x)
        (byteLen a + byteLen x + byteLen g)).current_text = some g := by
      show strGet text (byteLen a + byteLen x) (byteLen a + byteLen x + byteLen g) = some g
      rw [htext]
      have h := strGet_append (a ++ x) g (y ++ b)
      simpa [List.append_assoc, byteLen_append] using h
    simp only [hct2]
    by_cases hall : g.all (fun ch => ch != '\n' && isRustWhitespace ch) = true
    · rw [if_pos hall, if_pos ⟨hg, hall⟩]
      simp [SourceFileRange.source_range]
    · rw [if_neg hall, if_neg (by rintro ⟨-, hc⟩; exact hall hc)]

/-- Witness for C8: the text `if foo {\n} {\n}` with the first `if` at bytes
[0,10), the block at [11,14), and a single-space gap is flagged, with the gap
[10,11) reported. -/
theorem c8_witness :
    possible_missing_else_check
      [⟨0, ['i', 'f', ' ', 'f', 'o', 'o', ' ', '\x7b', '\n', '\x7d',
            ' ', '\x7b', '\n', '\x7d']⟩]
      true true true 0 10 11 14 = some (10, 11) := by
  have h := c8_possible_missing_else_spec
    [] ['i', 'f', ' ', 'f', 'o', 'o', ' ', '\x7b', '\n', '\x7d'] [' ']
    ['\x7b', '\n', '\x7d'] []
    ['i', 'f', ' ', 'f', 'o', 'o', ' ', '\x7b', '\n', '\x7d',
     ' ', '\x7b', '\n', '\x7d']
    (by decide) (by decide) (by decide) (by decide)
  exact h.trans (by decide)

/-- C9 counterexample: the claim describes a text shaped like `a =- 1;`,
but that exact text parses as an assignment and is dispatched to the twin
`check_assign` (which offers both rewrites), never to the cited
suspicious-unary-op check.  A text the cited check does reach is
`a <- 1;` — a binary comparison whose right operand is the unary `- 1` —
with the binary operator span over `<` (bytes [2,3)) and the right operand
ending at byte 6: there the lint emits exactly one suggestion, the
separated form `< -` over the window extended with trailing whitespace;
the reversed compound form `-<` is not offered, contradicting the claim
that both rewrites are offered. -/
theorem c9_counterexample :
    suspicious_unary_op_check [⟨0, ['a', ' ', '<', '-', ' ', '1', ';']⟩]
      true 2 3 6 ['<'] ['-'] true false =
      some ((2, 4),
        [⟨2, 5, ['<', ' ', '-'], Applicability.machineApplicable⟩]) ∧
    (∀ sugg ∈ [(⟨2, 5, ['<', ' ', '-'],
        Applicability.machineApplicable⟩ : UnOpSugg)],
      sugg.replacement ≠ ['-', '<']) :=
  ⟨by decide, by decide⟩

/-- C9 (amended): the two-suggestion behaviour the claim describes belongs
to the suspicious-assignment check, which handles the claim's own `a =- 1;`
shape: whenever it fires it offers exactly the two rewrites of the
two-character operator window — the reversed compound form `op=` over the
lint range and the separated form `= op` over the range extended with
trailing whitespace — never just one of them.  The suspicious-unary-op
check, which handles genuine binary operators such as `a <- 1;`, offers
exactly one rewrite: the separated form `bin_op SPACE un_op`; no reversed
compound form is ever among its suggestions. -/
theorem c9_both_rewrites_spec :
    (∀ (files : List SourceFile) (structureMatches : Bool)
        (opLo opHi assignHi : Nat) (opStr : Str) (inExternalMacro : Bool)
        (r : Nat × Nat) (suggs : List UnOpSugg),
      suspicious_assignment_check files structureMatches opLo opHi assignHi
        opStr inExternalMacro = some (r, suggs) →
      suggs.map (fun s => s.replacement) =
        [opStr ++ ['='], ['=', ' '] ++ opStr]) ∧
    (∀ (files : List SourceFile) (structureMatches : Bool)
        (binOpLo binOpHi rhsHi : Nat) (binOpStr unOpStr : Str)
        (ctxtIsRoot inExternalMacro : Bool)
        (r : Nat × Nat) (suggs : List UnOpSugg),
      suspicious_unary_op_check files structureMatches binOpLo binOpHi rhsHi
        binOpStr unOpStr ctxtIsRoot inExternalMacro = some (r, suggs) →
      suggs.map (fun s => s.replacement) =
        [binOpStr ++ [' '] ++ unOpStr]) := by
  constructor
  · intro files structureMatches opLo opHi assignHi opStr inExternalMacro
      r suggs hres
    unfold suspicious_assignment_check at hres
    split at hres
    · split at hres
      · cases hres
      · split at hres
        · cases hres
        · split at hres
          · cases hres
          · split at hres
            · cases hres
            · split at hres
              · cases hres
              · injection hres with h1
                have h2 := congrArg Prod.snd h1
                simp only [] at h2
                subst h2
                rfl
    · cases hres
  · intro files structureMatches binOpLo binOpHi rhsHi binOpStr unOpStr
      ctxtIsRoot inExternalMacro r suggs hres
    unfold suspicious_unary_op_check at hres
    split at hres
    · split at hres
      · cases hres
      · split at hres
        · cases hres
        · split at hres
          · cases hres
          · split at hres
            · cases hres
            · split at hres
              · cases hres
              · injection hres with h1
                have h2 := congrArg Prod.snd h1
                simp only [] at h2
                subst h2
                rfl
    · cases hres

/-- Witness for C9 (amended): at the claim's exemplar `a =- 1;` the
assignment check offers both rewrites (`-=` and `= -`); at `a <- 1;` the
unary-op check offers only the separated `< -`. -/
theorem c9_witness :
    ([⟨2, 4, ['-', '='], Applicability.maybeIncorrect⟩,
      ⟨2, 5, ['=', ' ', '-'], Applicability.maybeIncorrect⟩] :
        List UnOpSugg).map (fun s => s.replacement) =
      [['-'] ++ ['='], ['=', ' '] ++ ['-']] ∧
    ([(⟨2, 5, ['<', ' ', '-'],
        Applicability.machineApplicable⟩ : UnOpSugg)]).map
      (fun s => s.replacement) = [['<'] ++ [' '] ++ ['-']] :=
  ⟨c9_both_rewrites_spec.1 [⟨0, ['a', ' ', '=', '-', ' ', '1', ';']⟩]
     true 2 3 6 ['-'] false (2, 4)
     [⟨2, 4, ['-', '='], Applicability.maybeIncorrect⟩,
      ⟨2, 5, ['=', ' ', '-'], Applicability.maybeIncorrect⟩] (by decide),
   c9_both_rewrites_spec.2 [⟨0, ['a', ' ', '<', '-', ' ', '1', ';']⟩]
     true 2 3 6 ['<'] ['-'] true false (2, 4)
     [⟨2, 5, ['<', ' ', '-'], Applicability.machineApplicable⟩] (by decide)⟩

end Clippy
